import Mathlib

/-!
Verification of the process-forest reconstruction, breadth-first
recognition-and-pruning traversal, and recognizer selection of Bear's
`citnames` semantic layer (`Tool.cc`, `ToolLD.cc`).

The C++ code is shallowly embedded:
  * `report::Execution` becomes `Bear.Execution` (pid, ppid, command);
  * the generic `Forest<Entry, Id>` constructor becomes a left fold
    (`buildStep` / `mkForest`) over the execution log, with the
    `unordered_map`s modelled as functions `Nat → Option _` (with
    `emplace`'s insert-only-if-absent semantics) and the `unordered_set`s
    modelled as duplicate-free lists;
  * `Forest::bfs` becomes `bfsAux` — the unbounded C++ `while` loop is
    modelled with explicit fuel, returning `none` when the fuel runs out
    (the C++ loop genuinely diverges on some duplicate-id logs) or when a
    `.at()` lookup would throw;
  * `Tools::select` becomes `Tools.select` with the two `runtime_error`
    messages as the error values;
  * `ToolLD::recognize` becomes `ToolLD_recognize`: the anchored
    `std::regex_match` of the filename against `(.*)ld(.*)`.
-/

namespace Bear

/-- A command: program path and argument vector
(`report::Command`, program modelled as its path string). -/
structure Command where
  program : String
  arguments : List String
deriving DecidableEq, Repr

/-- One process execution record from the report (`report::Execution`):
process id, parent process id and the executed command. -/
structure Execution where
  pid : Nat
  ppid : Nat
  command : Command
deriving DecidableEq, Repr

/-- The process forest (`Forest<Entry, Id>` with `Id` = `Nat`):
`entries` is the id → entry map, `nodes` the id → children map,
`roots` the sorted list of root ids. -/
structure Forest (α : Type) where
  entries : Nat → Option α
  nodes : Nat → Option (List Nat)
  roots : List Nat

/-- The loop state of the `Forest` constructor's `for` loop over the input
log: `entries` and `nodes` as in the forest, plus the `maybe_roots` and
`non_roots` working sets (duplicate-free lists). -/
structure BuildState (α : Type) where
  entries : Nat → Option α
  nodes : Nat → Option (List Nat)
  maybe_roots : List Nat
  non_roots : List Nat

/-- One iteration of the `Forest` constructor's loop body
(`Tool.cc` lines 84–109): `emplace` the entry (keeping an existing one —
`emplace` does not overwrite), ensure the id has a children list, append
the id to its parent's children list (creating it if needed), then update
the `maybe_roots` / `non_roots` sets. -/
def buildStep {α : Type} (idf pf : α → Nat) (s : BuildState α) (entry : α) :
    BuildState α :=
  let id := idf entry
  let parent := pf entry
  -- entries.emplace(id, &entry): keep the old value when the key exists
  let entries1 : Nat → Option α :=
    fun k => if k = id then some ((s.entries id).getD entry) else s.entries k
  -- nodes.emplace(id, {}) when absent
  let nodes1 : Nat → Option (List Nat) :=
    fun k => if k = id then some ((s.nodes id).getD []) else s.nodes k
  -- nodes[parent].push_back(id), creating {id} when absent
  let nodes2 : Nat → Option (List Nat) :=
    fun k => if k = parent then some ((nodes1 parent).getD [] ++ [id]) else nodes1 k
  -- maybe_roots.erase(id); non_roots.insert(id);
  -- if (non_roots.count(parent) == 0) maybe_roots.insert(parent)
  let maybe1 := s.maybe_roots.erase id
  let non1 := s.non_roots.insert id
  let maybe2 := if parent ∈ non1 then maybe1 else maybe1.insert parent
  ⟨entries1, nodes2, maybe2, non1⟩

/-- The final `maybe_roots` loop (`Tool.cc` lines 110–120): a phantom root
(one with no entry) contributes its children to the new root set, a real
root contributes itself. The C++ `unordered_set` is modelled as a
duplicate-free list built by `List.insert`. -/
def newRoots {α : Type} (s : BuildState α) : List Nat :=
  s.maybe_roots.foldl
    (fun acc root =>
      if (s.entries root).isNone then
        ((s.nodes root).getD []).foldl (fun a c => a.insert c) acc
      else acc.insert root)
    []

/-- The state after the `Forest` constructor's loop has consumed the whole
input log. -/
def buildState {α : Type} (idf pf : α → Nat) (input : List α) : BuildState α :=
  input.foldl (buildStep idf pf) ⟨fun _ => none, fun _ => none, [], []⟩

/-- The whole `Forest` constructor (`Tool.cc` lines 74–124): fold the loop
body over the log, splice phantom roots' children into the root set,
erase phantom roots from `nodes`, and sort the roots ascending. -/
def mkForest {α : Type} (idf pf : α → Nat) (input : List α) : Forest α :=
  let s := buildState idf pf input
  { entries := s.entries
  , nodes := fun k =>
      if k ∈ s.maybe_roots ∧ (s.entries k).isNone = true then none else s.nodes k
  , roots := (newRoots s).insertionSort (· ≤ ·) }

/-- The `Forest::bfs` loop (`Tool.cc` lines 126–152), with explicit fuel
modelling the unbounded `while`: pop the front id, look up its entry
(`entries.at`, `none` modelling a thrown exception), apply the recognition
function; on success append its outputs to the result and do not touch the
children; on error append the node's children (`nodes.at`) to the back of
the queue. `none` also signals fuel exhaustion (the C++ loop need not
terminate). -/
def bfsAux {α β ε : Type} (F : Forest α) (f : α → Except ε (List β)) :
    Nat → List Nat → List β → Option (List β)
  | _, [], result => some result
  | 0, _ :: _, _ => none
  | fuel + 1, id :: queue, result =>
    match F.entries id with
    | none => none
    | some entry =>
      match f entry with
      | .ok outputs => bfsAux F f fuel queue (result ++ outputs)
      | .error _ =>
        match F.nodes id with
        | none => none
        | some ids => bfsAux F f fuel (queue ++ ids) result

/-- `Forest::bfs`: run the loop from the roots with an empty result. -/
def Forest.bfs {α β ε : Type} (F : Forest α) (f : α → Except ε (List β))
    (fuel : Nat) : Option (List β) :=
  bfsAux F f fuel F.roots []

/-- `bfsAux` instrumented with the list of popped (visited) ids, in pop
order; the program state and control flow are identical to `bfsAux`. -/
def bfsVisitAux {α β ε : Type} (F : Forest α) (f : α → Except ε (List β)) :
    Nat → List Nat → List β → List Nat → Option (List β × List Nat)
  | _, [], result, visited => some (result, visited)
  | 0, _ :: _, _, _ => none
  | fuel + 1, id :: queue, result, visited =>
    match F.entries id with
    | none => none
    | some entry =>
      match f entry with
      | .ok outputs => bfsVisitAux F f fuel queue (result ++ outputs) (visited ++ [id])
      | .error _ =>
        match F.nodes id with
        | none => none
        | some ids => bfsVisitAux F f fuel (queue ++ ids) result (visited ++ [id])

/-- Re-flattening a forest: the breadth-first visit of roots and children
in which no node is ever recognized (every node fails recognition, so every
visited node's children are enqueued), returning the visited ids in order. -/
def Forest.flatten {α : Type} (F : Forest α) (fuel : Nat) : Option (List Nat) :=
  (bfsVisitAux F (fun _ => (Except.error () : Except Unit (List Unit)))
    fuel F.roots [] []).map (fun p => p.2)

/-- A recognizer (`Tool` interface): the `recognize` predicate on the
program path and the `compilations` translation of a full command. -/
structure Tool (σ : Type) where
  recognize : String → Bool
  compilations : Command → Except String (List σ)

/-- The recognizer registry (`Tools`): the ordered recognizer list and the
exclude list of program paths. -/
structure Tools (σ : Type) where
  tools : List (Tool σ)
  to_exclude : List String

/-- `Tools::select` (`Tool.cc` lines 215–230): fail with the exclude error
when the program is on the exclude list; otherwise return the first
recognizer whose `recognize` is true; otherwise fail with the
unrecognized error. -/
def Tools.select {σ : Type} (ts : Tools σ) (command : Command) :
    Except String (Tool σ) :=
  if command.program ∈ ts.to_exclude then
    .error "The compiler is on the exclude list from configuration."
  else
    match ts.tools.find? (fun tool => tool.recognize command.program) with
    | some tool => .ok tool
    | none => .error "No tools recognize this command."

/-- The last path component (`fs::path::filename`), as characters:
everything after the last `/`. -/
def lastComponent (s : List Char) : List Char :=
  s.foldl (fun acc c => if c = '/' then [] else acc ++ [c]) []

/-- Anchored match of `(.*)ld(.*)` at the head of the input: the pattern's
first `(.*)` consumed nothing and the literal `ld` must match here. -/
def hasLdAtHead : List Char → Bool
  | c1 :: c2 :: _ => c1 == 'l' && c2 == 'd'
  | _ => false

/-- Full match of the `std::regex` `(.*)ld(.*)` (`ToolLD.cc` line 33)
against the input: some split lets the first `(.*)` consume a prefix, then
the literal `ld` matches, then the second `(.*)` consumes the rest. -/
def matchesLD : List Char → Bool
  | [] => false
  | c :: rest => hasLdAtHead (c :: rest) || matchesLD rest

/-- `ToolLD::recognize` (`ToolLD.cc` lines 31–49): `std::regex_match` of
`program.filename()` against `(.*)ld(.*)` (the `std::cout` diagnostics do
not affect the returned value). -/
def ToolLD_recognize (program : String) : Bool :=
  matchesLD (lastComponent program.data)

/-! ### Derived notions used to state properties -/

/-- The children list a key ends up with in `nodes`: the ids of the log
records whose parent id is `k`, in first-seen (log) order. -/
def childrenOf {α : Type} (idf pf : α → Nat) (log : List α) (k : Nat) : List Nat :=
  (log.filter (fun e => pf e == k)).map idf

/-- The parent id of the id `k`, read off the first log record whose id is
`k` (for logs with duplicate-free ids, the only such record); `0` when no
record has id `k`. -/
def parentOf {α : Type} (idf pf : α → Nat) (log : List α) (k : Nat) : Nat :=
  match log.find? (fun e => idf e == k) with
  | some e => pf e
  | none => 0

/-- `Forest::bfs` instrumented with the pop (visit) order, run from the
roots: same control flow as `Forest.bfs`. -/
def Forest.bfsTrace {α β ε : Type} (F : Forest α) (f : α → Except ε (List β))
    (fuel : Nat) : Option (List β × List Nat) :=
  bfsVisitAux F f fuel F.roots [] []

/-- The forest `Tools::transform` builds over the execution report: ids
extracted by `run.pid`, parent ids by `run.ppid` (`Tool.cc` lines
178–186). -/
def executionForest (log : List Execution) : Forest Execution :=
  mkForest (fun e => e.pid) (fun e => e.ppid) log

/-! ### Concrete instances used by witnesses and counterexamples -/

/-- A command with no arguments. -/
def mkCmd (p : String) : Command := ⟨p, []⟩

/-- The 3-node chain A→B→C of the pruning scenario: process 1 spawns 2,
which spawns 3. -/
def chainLog : List Execution :=
  [⟨1, 0, mkCmd "a"⟩, ⟨2, 1, mkCmd "b"⟩, ⟨3, 2, mkCmd "c"⟩]

/-- A recognition function that recognizes exactly process 1, producing
the single semantic value `42`. -/
def recognizeRoot (e : Execution) : Except String (List Nat) :=
  if e.pid = 1 then .ok [42] else .error "no"

/-- A recognition function that fails on every entry. -/
def recognizeNone (e : Execution) : Except String (List Nat) :=
  if e.pid = e.pid then .error "no" else .ok []

/-- Two records with the same process id 1 but different commands. -/
def dupLog : List Execution :=
  [⟨1, 0, mkCmd "first"⟩, ⟨1, 0, mkCmd "second"⟩]

/-- Processes 2 and 3 both list parent 1, but 1 is never itself logged. -/
def phantomLog : List Execution :=
  [⟨2, 1, mkCmd "x"⟩, ⟨3, 1, mkCmd "y"⟩]

/-- A single record whose parent id equals its own id. -/
def selfLog : List Execution := [⟨1, 1, mkCmd "loop"⟩]

/-- A log with unique ids containing a self-parent record (process 2). -/
def selfParentLog : List Execution :=
  [⟨1, 0, mkCmd "a"⟩, ⟨2, 2, mkCmd "b"⟩]

/-- A 2-node chain under a phantom root 0. -/
def smallLog : List Execution := [⟨1, 0, mkCmd "a"⟩, ⟨2, 1, mkCmd "b"⟩]

/-- A recognizer that recognizes every program. -/
def alwaysTool : Tool Nat := ⟨fun p => p == p, fun _ => .ok []⟩

/-- A registry holding `alwaysTool` with `"gcc"` on the exclude list. -/
def excludeTools : Tools Nat := ⟨[alwaysTool], ["gcc"]⟩

/-- A second recognizer that also recognizes every program but produces a
different semantic payload. -/
def alwaysTool2 : Tool Nat := ⟨fun p => p == p, fun _ => .ok [1]⟩

/-- A registry with two recognizers that both match every program and an
empty exclude list. -/
def twoTools : Tools Nat := ⟨[alwaysTool, alwaysTool2], []⟩

/-- The command invoking `"gcc"`. -/
def gccCmd : Command := mkCmd "gcc"

/-! ### Characterizing the constructor's loop state -/

/-- Characterization of the `Forest` constructor's loop state after
consuming the log prefix `log`: `entries` holds the first record for each
id (`emplace` keeps the existing mapping), `nodes` holds each referenced
key's children in first-seen order, `maybe_roots` holds exactly the parent
ids never seen as a record id, `non_roots` the record ids. -/
structure BuildInv {α : Type} (idf pf : α → Nat) (log : List α)
    (s : BuildState α) : Prop where
  entries_eq : ∀ k, s.entries k = log.find? (fun e => idf e == k)
  nodes_mem : ∀ k, (k ∈ log.map idf ∨ k ∈ log.map pf) →
    s.nodes k = some (childrenOf idf pf log k)
  nodes_none : ∀ k, ¬(k ∈ log.map idf ∨ k ∈ log.map pf) → s.nodes k = none
  maybe_mem : ∀ k, k ∈ s.maybe_roots ↔ (k ∈ log.map pf ∧ k ∉ log.map idf)
  maybe_nodup : s.maybe_roots.Nodup
  non_mem : ∀ k, k ∈ s.non_roots ↔ k ∈ log.map idf
  non_nodup : s.non_roots.Nodup

theorem find?_concat {α : Type} (p : α → Bool) (l : List α) (e : α) :
    (l ++ [e]).find? p = ((l.find? p).elim (if p e then some e else none) some) := by
  induction l with
  | nil => cases hpe : p e <;> simp [List.find?, hpe]
  | cons a t ih =>
    by_cases h : p a
    · simp [List.find?_cons_of_pos _ h]
    · simpa [List.find?_cons_of_neg _ h] using ih

theorem childrenOf_concat {α : Type} (idf pf : α → Nat) (log : List α) (e : α)
    (k : Nat) :
    childrenOf idf pf (log ++ [e]) k =
      childrenOf idf pf log k ++ (if pf e = k then [idf e] else []) := by
  by_cases h : pf e = k <;>
    · have hb : (pf e == k) = decide (pf e = k) := rfl
      simp [childrenOf, List.filter_append, List.filter, hb, h]

theorem childrenOf_of_not_parent {α : Type} (idf pf : α → Nat) (log : List α)
    (k : Nat) (h : k ∉ log.map pf) : childrenOf idf pf log k = [] := by
  unfold childrenOf
  rw [List.filter_eq_nil_iff.mpr, List.map_nil]
  intro a ha
  simp only [beq_iff_eq]
  intro hk
  exact h (List.mem_map.mpr ⟨a, ha, hk⟩)

theorem buildStep_entries {α : Type} (idf pf : α → Nat) (s : BuildState α)
    (e : α) (k : Nat) :
    (buildStep idf pf s e).entries k =
      if k = idf e then some ((s.entries (idf e)).getD e) else s.entries k := rfl

theorem buildStep_nodes {α : Type} (idf pf : α → Nat) (s : BuildState α)
    (e : α) (k : Nat) :
    (buildStep idf pf s e).nodes k =
      if k = pf e then
        some ((if pf e = idf e then some ((s.nodes (idf e)).getD [])
               else s.nodes (pf e)).getD [] ++ [idf e])
      else if k = idf e then some ((s.nodes (idf e)).getD []) else s.nodes k := rfl

theorem buildStep_maybe {α : Type} (idf pf : α → Nat) (s : BuildState α)
    (e : α) :
    (buildStep idf pf s e).maybe_roots =
      if pf e ∈ s.non_roots.insert (idf e) then s.maybe_roots.erase (idf e)
      else (s.maybe_roots.erase (idf e)).insert (pf e) := rfl

theorem buildStep_non {α : Type} (idf pf : α → Nat) (s : BuildState α)
    (e : α) :
    (buildStep idf pf s e).non_roots = s.non_roots.insert (idf e) := rfl

theorem buildInv_step {α : Type} (idf pf : α → Nat) (log : List α)
    (s : BuildState α) (h : BuildInv idf pf log s) (e : α) :
    BuildInv idf pf (log ++ [e]) (buildStep idf pf s e) := by
  have hchild : ∀ k, (s.nodes k).getD [] = childrenOf idf pf log k := by
    intro k
    by_cases hk : k ∈ log.map idf ∨ k ∈ log.map pf
    · rw [h.nodes_mem k hk]; rfl
    · rw [h.nodes_none k hk,
        childrenOf_of_not_parent idf pf log k (fun hm => hk (Or.inr hm))]
      rfl
  have hmemI : ∀ k, k ∈ (log ++ [e]).map idf ↔ k ∈ log.map idf ∨ k = idf e := by
    intro k
    simp [List.map_append, List.mem_append, eq_comm]
  have hmemP : ∀ k, k ∈ (log ++ [e]).map pf ↔ k ∈ log.map pf ∨ k = pf e := by
    intro k
    simp [List.map_append, List.mem_append, eq_comm]
  constructor
  · -- entries: first record for each id wins
    intro k
    rw [buildStep_entries, find?_concat]
    by_cases hk : k = idf e
    · subst hk
      rw [if_pos rfl, h.entries_eq]
      cases hfind : log.find? (fun x => idf x == idf e) <;> simp [hfind]
    · rw [if_neg hk, h.entries_eq]
      have hne : (idf e == k) = false := by
        simp only [beq_eq_false_iff_ne, ne_eq]
        exact fun hc => hk hc.symm
      cases hfind : log.find? (fun x => idf x == k) <;> simp [hfind, hne]
  · -- nodes: referenced keys carry their children in first-seen order
    intro k hk
    rw [buildStep_nodes, childrenOf_concat]
    by_cases hp : k = pf e
    · rw [if_pos hp]
      have h1 : (if pf e = idf e then some ((s.nodes (idf e)).getD [])
          else s.nodes (pf e)).getD [] = childrenOf idf pf log (pf e) := by
        by_cases hpi : pf e = idf e
        · rw [if_pos hpi, Option.getD_some, hchild, hpi]
        · rw [if_neg hpi, hchild]
      rw [h1, if_pos hp.symm, hp]
    · rw [if_neg hp, if_neg (fun hc : pf e = k => hp hc.symm), List.append_nil]
      by_cases hki : k = idf e
      · rw [if_pos hki, hchild, hki]
      · rw [if_neg hki]
        apply h.nodes_mem
        rcases hk with hk | hk
        · rcases (hmemI k).mp hk with hk | hk
          · exact Or.inl hk
          · exact absurd hk hki
        · rcases (hmemP k).mp hk with hk | hk
          · exact Or.inr hk
          · exact absurd hk hp
  · -- nodes: unreferenced keys stay absent
    intro k hk
    have hki : k ≠ idf e := fun hc => hk (Or.inl ((hmemI k).mpr (Or.inr hc)))
    have hkp : k ≠ pf e := fun hc => hk (Or.inr ((hmemP k).mpr (Or.inr hc)))
    rw [buildStep_nodes, if_neg hkp, if_neg hki]
    apply h.nodes_none
    rintro (hc | hc)
    · exact hk (Or.inl ((hmemI k).mpr (Or.inl hc)))
    · exact hk (Or.inr ((hmemP k).mpr (Or.inl hc)))
  · -- maybe_roots: exactly the parents never logged as an id
    intro k
    have herase : ∀ x, x ∈ s.maybe_roots.erase (idf e) ↔
        x ≠ idf e ∧ (x ∈ log.map pf ∧ x ∉ log.map idf) := by
      intro x
      rw [h.maybe_nodup.mem_erase_iff, h.maybe_mem]
    rw [buildStep_maybe, hmemP, hmemI]
    by_cases hc : pf e ∈ s.non_roots.insert (idf e)
    · rw [if_pos hc]
      rw [List.mem_insert_iff, h.non_mem] at hc
      rw [herase]
      constructor
      · rintro ⟨hne, hP, hnI⟩
        exact ⟨Or.inl hP, fun hcon => hcon.elim hnI hne⟩
      · rintro ⟨hPor, hnor⟩
        have hnI : k ∉ log.map idf := fun hx => hnor (Or.inl hx)
        have hne : k ≠ idf e := fun hx => hnor (Or.inr hx)
        rcases hPor with hP | hke
        · exact ⟨hne, hP, hnI⟩
        · subst hke
          rcases hc with hc | hc
          · exact absurd hc hne
          · exact absurd hc hnI
    · rw [if_neg hc, List.mem_insert_iff, herase]
      rw [List.mem_insert_iff, h.non_mem] at hc
      push_neg at hc
      constructor
      · rintro (hke | ⟨hne, hP, hnI⟩)
        · subst hke
          exact ⟨Or.inr rfl, fun hcon => hcon.elim hc.2 hc.1⟩
        · exact ⟨Or.inl hP, fun hcon => hcon.elim hnI hne⟩
      · rintro ⟨hPor, hnor⟩
        have hnI : k ∉ log.map idf := fun hx => hnor (Or.inl hx)
        have hne : k ≠ idf e := fun hx => hnor (Or.inr hx)
        rcases hPor with hP | hke
        · exact Or.inr ⟨hne, hP, hnI⟩
        · exact Or.inl hke
  · -- maybe_roots stays duplicate-free
    rw [buildStep_maybe]
    by_cases hc : pf e ∈ s.non_roots.insert (idf e)
    · rw [if_pos hc]
      exact h.maybe_nodup.erase _
    · rw [if_neg hc]
      exact (h.maybe_nodup.erase _).insert
  · -- non_roots: exactly the logged ids
    intro k
    rw [buildStep_non, List.mem_insert_iff, h.non_mem, hmemI]
    tauto
  · -- non_roots stays duplicate-free
    rw [buildStep_non]
    exact h.non_nodup.insert

theorem buildInv_foldl {α : Type} (idf pf : α → Nat) :
    ∀ (M L : List α) (s : BuildState α), BuildInv idf pf L s →
      BuildInv idf pf (L ++ M) (M.foldl (buildStep idf pf) s)
  | [], L, s, h => by simpa using h
  | e :: M, L, s, h => by
    have h2 := buildInv_step idf pf L s h e
    have h3 := buildInv_foldl idf pf M (L ++ [e]) _ h2
    simpa using h3

theorem buildInv_init {α : Type} (idf pf : α → Nat) :
    BuildInv idf pf []
      (⟨fun _ => none, fun _ => none, [], []⟩ : BuildState α) := by
  constructor <;> simp [childrenOf]

theorem buildInv_buildState {α : Type} (idf pf : α → Nat) (log : List α) :
    BuildInv idf pf log (buildState idf pf log) := by
  have h := buildInv_foldl idf pf log [] _ (buildInv_init idf pf)
  simpa [buildState] using h

/-! ### Characterizing the finished forest -/

theorem mem_foldl_insert (l acc : List Nat) (x : Nat) :
    x ∈ l.foldl (fun a c => a.insert c) acc ↔ x ∈ acc ∨ x ∈ l := by
  induction l generalizing acc with
  | nil => simp
  | cons c t ih =>
    rw [List.foldl_cons, ih]
    rw [List.mem_insert_iff]
    simp only [List.mem_cons]
    tauto

theorem nodup_foldl_insert (l : List Nat) (acc : List Nat) (h : acc.Nodup) :
    (l.foldl (fun a c => a.insert c) acc).Nodup := by
  induction l generalizing acc with
  | nil => exact h
  | cons c t ih => exact ih _ h.insert

theorem mem_newRoots {α : Type} (s : BuildState α) (x : Nat) :
    x ∈ newRoots s ↔ ∃ r ∈ s.maybe_roots,
      ((s.entries r).isNone = true ∧ x ∈ (s.nodes r).getD []) ∨
      ((s.entries r).isNone = false ∧ x = r) := by
  have main : ∀ (l acc : List Nat),
      x ∈ l.foldl (fun acc root =>
        if (s.entries root).isNone then
          ((s.nodes root).getD []).foldl (fun a c => a.insert c) acc
        else acc.insert root) acc ↔
      x ∈ acc ∨ ∃ r ∈ l,
        ((s.entries r).isNone = true ∧ x ∈ (s.nodes r).getD []) ∨
        ((s.entries r).isNone = false ∧ x = r) := by
    intro l
    induction l with
    | nil => simp
    | cons r t ih =>
      intro acc
      rw [List.foldl_cons]
      by_cases hr : (s.entries r).isNone
      · rw [if_pos hr, ih, mem_foldl_insert]
        simp only [List.mem_cons]
        constructor
        · rintro ((hx | hx) | ⟨r2, hr2, hc⟩)
          · exact Or.inl hx
          · exact Or.inr ⟨r, Or.inl rfl, Or.inl ⟨hr, hx⟩⟩
          · exact Or.inr ⟨r2, Or.inr hr2, hc⟩
        · rintro (hx | ⟨r2, (hr2 | hr2), hc⟩)
          · exact Or.inl (Or.inl hx)
          · subst hr2
            rcases hc with ⟨_, hx⟩ | ⟨hfalse, _⟩
            · exact Or.inl (Or.inr hx)
            · rw [hr] at hfalse; cases hfalse
          · exact Or.inr ⟨r2, hr2, hc⟩
      · rw [if_neg hr, ih, List.mem_insert_iff]
        simp only [List.mem_cons]
        rw [Bool.not_eq_true] at hr
        constructor
        · rintro ((hx | hx) | ⟨r2, hr2, hc⟩)
          · exact Or.inr ⟨r, Or.inl rfl, Or.inr ⟨hr, hx⟩⟩
          · exact Or.inl hx
          · exact Or.inr ⟨r2, Or.inr hr2, hc⟩
        · rintro (hx | ⟨r2, (hr2 | hr2), hc⟩)
          · exact Or.inl (Or.inr hx)
          · subst hr2
            rcases hc with ⟨htrue, _⟩ | ⟨_, hx⟩
            · rw [hr] at htrue; cases htrue
            · exact Or.inl (Or.inl hx)
          · exact Or.inr ⟨r2, hr2, hc⟩
  rw [newRoots, main]
  simp

theorem nodup_newRoots {α : Type} (s : BuildState α) : (newRoots s).Nodup := by
  have main : ∀ (l acc : List Nat), acc.Nodup →
      (l.foldl (fun acc root =>
        if (s.entries root).isNone then
          ((s.nodes root).getD []).foldl (fun a c => a.insert c) acc
        else acc.insert root) acc).Nodup := by
    intro l
    induction l with
    | nil => exact fun acc h => h
    | cons r t ih =>
      intro acc hacc
      rw [List.foldl_cons]
      by_cases hr : (s.entries r).isNone
      · rw [if_pos hr]
        exact ih _ (nodup_foldl_insert _ _ hacc)
      · rw [if_neg hr]
        exact ih _ hacc.insert
  exact main _ _ List.nodup_nil

theorem mkForest_entries {α : Type} (idf pf : α → Nat) (log : List α) (k : Nat) :
    (mkForest idf pf log).entries k = log.find? (fun e => idf e == k) :=
  (buildInv_buildState idf pf log).entries_eq k

theorem mkForest_roots_eq {α : Type} (idf pf : α → Nat) (log : List α) :
    (mkForest idf pf log).roots =
      (newRoots (buildState idf pf log)).insertionSort (· ≤ ·) := rfl

theorem mkForest_roots_sorted {α : Type} (idf pf : α → Nat) (log : List α) :
    ((mkForest idf pf log).roots).Sorted (· ≤ ·) := by
  rw [mkForest_roots_eq]
  exact List.sorted_insertionSort _ _

theorem mkForest_roots_nodup {α : Type} (idf pf : α → Nat) (log : List α) :
    ((mkForest idf pf log).roots).Nodup := by
  rw [mkForest_roots_eq]
  exact (List.perm_insertionSort _ _).nodup_iff.mpr (nodup_newRoots _)

theorem mkForest_nodes_eq {α : Type} (idf pf : α → Nat) (log : List α)
    (k : Nat) :
    (mkForest idf pf log).nodes k =
      (if k ∈ (buildState idf pf log).maybe_roots ∧
          ((buildState idf pf log).entries k).isNone = true then none
       else (buildState idf pf log).nodes k) := rfl

theorem entries_isNone_of_not_mem {α : Type} (idf pf : α → Nat) (log : List α)
    (k : Nat) (hk : k ∉ log.map idf) :
    ((buildState idf pf log).entries k).isNone = true := by
  rw [(buildInv_buildState idf pf log).entries_eq k]
  rw [List.find?_eq_none.mpr]
  · rfl
  · intro e he
    simp only [beq_iff_eq]
    intro hc
    exact hk (List.mem_map.mpr ⟨e, he, hc⟩)

theorem mkForest_nodes_of_mem_ids {α : Type} (idf pf : α → Nat) (log : List α)
    (k : Nat) (hk : k ∈ log.map idf) :
    (mkForest idf pf log).nodes k = some (childrenOf idf pf log k) := by
  have inv := buildInv_buildState idf pf log
  rw [mkForest_nodes_eq, if_neg, inv.nodes_mem k (Or.inl hk)]
  rintro ⟨hmem, _⟩
  exact ((inv.maybe_mem k).mp hmem).2 hk

theorem mkForest_nodes_phantom {α : Type} (idf pf : α → Nat) (log : List α)
    (k : Nat) (hp : k ∈ log.map pf) (hk : k ∉ log.map idf) :
    (mkForest idf pf log).nodes k = none := by
  have inv := buildInv_buildState idf pf log
  rw [mkForest_nodes_eq, if_pos]
  exact ⟨(inv.maybe_mem k).mpr ⟨hp, hk⟩, entries_isNone_of_not_mem idf pf log k hk⟩

theorem mem_mkForest_roots {α : Type} (idf pf : α → Nat) (log : List α)
    (x : Nat) :
    x ∈ (mkForest idf pf log).roots ↔
      ∃ p, p ∈ log.map pf ∧ p ∉ log.map idf ∧ x ∈ childrenOf idf pf log p := by
  have inv := buildInv_buildState idf pf log
  rw [mkForest_roots_eq, (List.perm_insertionSort _ _).mem_iff, mem_newRoots]
  constructor
  · rintro ⟨r, hr, hcase⟩
    obtain ⟨hrP, hrI⟩ := (inv.maybe_mem r).mp hr
    rcases hcase with ⟨_, hx⟩ | ⟨hfalse, _⟩
    · refine ⟨r, hrP, hrI, ?_⟩
      rw [inv.nodes_mem r (Or.inr hrP)] at hx
      exact hx
    · rw [entries_isNone_of_not_mem idf pf log r hrI] at hfalse
      cases hfalse
  · rintro ⟨p, hpP, hpI, hx⟩
    refine ⟨p, (inv.maybe_mem p).mpr ⟨hpP, hpI⟩, Or.inl ?_⟩
    refine ⟨entries_isNone_of_not_mem idf pf log p hpI, ?_⟩
    rw [inv.nodes_mem p (Or.inr hpP)]
    exact hx

/-! ### The unique-ids layer -/

theorem find?_idf_self {α : Type} (idf : α → Nat) (log : List α)
    (hU : (log.map idf).Nodup) (e : α) (he : e ∈ log) :
    log.find? (fun x => idf x == idf e) = some e := by
  induction log with
  | nil => cases he
  | cons a t ih =>
    rw [List.map_cons, List.nodup_cons] at hU
    rcases List.mem_cons.mp he with he | he
    · subst he
      exact List.find?_cons_of_pos _ (beq_self_eq_true _)
    · have hne : ¬(idf a == idf e) = true := by
        simp only [beq_iff_eq]
        intro hc
        exact hU.1 (hc ▸ List.mem_map.mpr ⟨e, he, rfl⟩)
      rw [@List.find?_cons_of_neg α (fun x => idf x == idf e) a t hne]
      exact ih hU.2 he

theorem parentOf_eq {α : Type} (idf pf : α → Nat) (log : List α)
    (hU : (log.map idf).Nodup) (e : α) (he : e ∈ log) :
    parentOf idf pf log (idf e) = pf e := by
  rw [parentOf, find?_idf_self idf log hU e he]

theorem mem_childrenOf_iff {α : Type} (idf pf : α → Nat) (log : List α)
    (hU : (log.map idf).Nodup) (k c : Nat) :
    c ∈ childrenOf idf pf log k ↔
      c ∈ log.map idf ∧ parentOf idf pf log c = k := by
  rw [childrenOf]
  constructor
  · intro hc
    obtain ⟨e, hef, hei⟩ := List.mem_map.mp hc
    obtain ⟨hel, hep⟩ := List.mem_filter.mp hef
    have hpk : pf e = k := by simpa using hep
    subst hei
    exact ⟨List.mem_map.mpr ⟨e, hel, rfl⟩,
      (parentOf_eq idf pf log hU e hel).trans hpk⟩
  · rintro ⟨hc, hp⟩
    obtain ⟨e, hel, hei⟩ := List.mem_map.mp hc
    subst hei
    rw [parentOf_eq idf pf log hU e hel] at hp
    refine List.mem_map.mpr ⟨e, List.mem_filter.mpr ⟨hel, ?_⟩, rfl⟩
    simpa using hp

theorem childrenOf_nodup {α : Type} (idf pf : α → Nat) (log : List α)
    (hU : (log.map idf).Nodup) (k : Nat) : (childrenOf idf pf log k).Nodup :=
  ((List.filter_sublist log).map idf).nodup hU

theorem mem_roots_iff {α : Type} (idf pf : α → Nat) (log : List α)
    (hU : (log.map idf).Nodup) (x : Nat) :
    x ∈ (mkForest idf pf log).roots ↔
      x ∈ log.map idf ∧ parentOf idf pf log x ∉ log.map idf := by
  rw [mem_mkForest_roots]
  constructor
  · rintro ⟨p, _, hpI, hx⟩
    obtain ⟨hxI, hxp⟩ := (mem_childrenOf_iff idf pf log hU p x).mp hx
    exact ⟨hxI, hxp ▸ hpI⟩
  · rintro ⟨hxI, hpar⟩
    obtain ⟨e, hel, hei⟩ := List.mem_map.mp hxI
    subst hei
    rw [parentOf_eq idf pf log hU e hel] at hpar
    refine ⟨pf e, List.mem_map.mpr ⟨e, hel, rfl⟩, hpar, ?_⟩
    exact (mem_childrenOf_iff idf pf log hU (pf e) (idf e)).mpr
      ⟨hxI, parentOf_eq idf pf log hU e hel⟩

theorem mkForest_entries_isSome {α : Type} (idf pf : α → Nat) (log : List α)
    (k : Nat) (hk : k ∈ log.map idf) :
    ((mkForest idf pf log).entries k).isSome = true := by
  rw [mkForest_entries]
  apply List.find?_isSome.mpr
  obtain ⟨e, hel, hei⟩ := List.mem_map.mp hk
  exact ⟨e, hel, by simpa using hei⟩

/-! ### The traversal master lemma

For any forest whose reachable structure is described by a duplicate-free
id universe `ids` and a parent function `par` (each id's children list
holds exactly the ids whose parent it is), the instrumented traversal
terminates within `|Q| + 2·|unseen ids|` steps, never pops an id twice,
pops everything ever queued, and — whenever the recognition function fails
on a popped node — pops all of that node's children as well. -/

theorem bfsVisit_master {α β ε : Type} (F : Forest α)
    (f : α → Except ε (List β)) (ids : List Nat) (par : Nat → Nat)
    (hent : ∀ k ∈ ids, (F.entries k).isSome = true)
    (hnodes : ∀ k ∈ ids, ∃ ch, F.nodes k = some ch ∧ ch.Nodup ∧
      ∀ c, c ∈ ch ↔ (c ∈ ids ∧ par c = k)) :
    ∀ (fuel : Nat) (V Q : List Nat) (acc : List β),
      (V ++ Q).Nodup →
      (∀ x ∈ V ++ Q, x ∈ ids) →
      (∀ x ∈ V ++ Q, par x ∉ ids ∨ par x ∈ V) →
      Q.length + 2 * (ids.toFinset \ (V ++ Q).toFinset).card ≤ fuel →
      ∃ r t, bfsVisitAux F f fuel Q acc V = some (r, V ++ t) ∧
        (V ++ t).Nodup ∧
        (∀ x ∈ t, x ∈ ids) ∧
        (∀ x ∈ Q, x ∈ t) ∧
        (∀ x ∈ t, ∀ e, F.entries x = some e →
          (∀ out, ¬ f e = Except.ok out) →
          ∀ k ∈ ids, par k = x → k ∈ V ++ t) := by
  intro fuel
  induction fuel with
  | zero =>
    intro V Q acc hnd hin hinv hfuel
    cases Q with
    | cons a Qt => simp only [List.length_cons] at hfuel; omega
    | nil =>
      refine ⟨acc, [], by simp [bfsVisitAux], by simpa using hnd, ?_, ?_, ?_⟩
        <;> simp
  | succ fuel ih =>
    intro V Q acc hnd hin hinv hfuel
    cases Q with
    | nil =>
      refine ⟨acc, [], by simp [bfsVisitAux], by simpa using hnd, ?_, ?_, ?_⟩
        <;> simp
    | cons id Qt =>
      have hidids : id ∈ ids := hin id (List.mem_append_right _ (by simp))
      obtain ⟨e, he⟩ := Option.isSome_iff_exists.mp (hent id hidids)
      have hidV : id ∉ V := by
        rw [List.nodup_append] at hnd
        exact fun hc => hnd.2.2 hc (by simp)
      have hlist : V ++ id :: Qt = (V ++ [id]) ++ Qt := by simp
      cases hf : f e with
      | ok outs =>
        have hpre1 : ((V ++ [id]) ++ Qt).Nodup := by rw [← hlist]; exact hnd
        have hpre2 : ∀ x ∈ (V ++ [id]) ++ Qt, x ∈ ids := by
          intro x hx
          exact hin x (by rw [hlist]; exact hx)
        have hpre3 : ∀ x ∈ (V ++ [id]) ++ Qt, par x ∉ ids ∨ par x ∈ V ++ [id] := by
          intro x hx
          rcases hinv x (by rw [hlist]; exact hx) with h | h
          · exact Or.inl h
          · exact Or.inr (List.mem_append_left _ h)
        have hpre4 : Qt.length
            + 2 * (ids.toFinset \ ((V ++ [id]) ++ Qt).toFinset).card ≤ fuel := by
          rw [← hlist]
          simp only [List.length_cons] at hfuel
          omega
        obtain ⟨r, t', heq, hnd', hids', hQ', hC'⟩ :=
          ih (V ++ [id]) Qt (acc ++ outs) hpre1 hpre2 hpre3 hpre4
        have hstep : bfsVisitAux F f (fuel + 1) (id :: Qt) acc V
            = bfsVisitAux F f fuel Qt (acc ++ outs) (V ++ [id]) := by
          simp [bfsVisitAux, he, hf]
        refine ⟨r, id :: t', ?_, ?_, ?_, ?_, ?_⟩
        · rw [hstep, heq]
          simp
        · simpa using hnd'
        · intro x hx
          rcases List.mem_cons.mp hx with hx | hx
          · exact hx ▸ hidids
          · exact hids' x hx
        · intro x hx
          rcases List.mem_cons.mp hx with hx | hx
          · exact hx ▸ List.mem_cons_self _ _
          · exact List.mem_cons_of_mem _ (hQ' x hx)
        · intro x hx e' he' hne k hk hpark
          rcases List.mem_cons.mp hx with hx | hx
          · subst hx
            rw [he] at he'
            cases he'
            exact absurd hf (hne outs)
          · have hmem := hC' x hx e' he' hne k hk hpark
            simpa using hmem
      | error err =>
        obtain ⟨ch, hch, hchnd, hchmem⟩ := hnodes id hidids
        have hdisj : ∀ c ∈ ch, c ∉ V ++ id :: Qt := by
          intro c hc hcV
          obtain ⟨hcids, hcpar⟩ := (hchmem c).mp hc
          rcases hinv c hcV with hpar | hpar
          · exact hpar (hcpar ▸ hidids)
          · rw [hcpar] at hpar
            exact hidV hpar
        have hlist2 : (V ++ [id]) ++ (Qt ++ ch) = (V ++ id :: Qt) ++ ch := by
          simp
        have hpre1 : ((V ++ [id]) ++ (Qt ++ ch)).Nodup := by
          rw [hlist2, List.nodup_append]
          exact ⟨hnd, hchnd, fun a ha hac => hdisj a hac ha⟩
        have hpre2 : ∀ x ∈ (V ++ [id]) ++ (Qt ++ ch), x ∈ ids := by
          intro x hx
          rw [hlist2] at hx
          rcases List.mem_append.mp hx with hx | hx
          · exact hin x hx
          · exact ((hchmem x).mp hx).1
        have hpre3 : ∀ x ∈ (V ++ [id]) ++ (Qt ++ ch),
            par x ∉ ids ∨ par x ∈ V ++ [id] := by
          intro x hx
          rw [hlist2] at hx
          rcases List.mem_append.mp hx with hx | hx
          · rcases hinv x hx with h | h
            · exact Or.inl h
            · exact Or.inr (List.mem_append_left _ h)
          · refine Or.inr (List.mem_append_right _ ?_)
            rw [((hchmem x).mp hx).2]
            simp
        have hsub : ch.toFinset ⊆ ids.toFinset \ (V ++ id :: Qt).toFinset := by
          intro a ha
          rw [List.mem_toFinset] at ha
          rw [Finset.mem_sdiff, List.mem_toFinset, List.mem_toFinset]
          exact ⟨((hchmem a).mp ha).1, hdisj a ha⟩
        have hset : ids.toFinset \ ((V ++ [id]) ++ (Qt ++ ch)).toFinset
            = (ids.toFinset \ (V ++ id :: Qt).toFinset) \ ch.toFinset := by
          rw [hlist2, List.toFinset_append]
          ext a
          simp only [Finset.mem_sdiff, Finset.mem_union]
          tauto
        have hcard : (ids.toFinset \ ((V ++ [id]) ++ (Qt ++ ch)).toFinset).card
            = (ids.toFinset \ (V ++ id :: Qt).toFinset).card - ch.length := by
          rw [hset, Finset.card_sdiff hsub, List.toFinset_card_of_nodup hchnd]
        have hle : ch.length ≤ (ids.toFinset \ (V ++ id :: Qt).toFinset).card := by
          calc ch.length = ch.toFinset.card :=
                (List.toFinset_card_of_nodup hchnd).symm
            _ ≤ _ := Finset.card_le_card hsub
        have hpre4 : (Qt ++ ch).length
            + 2 * (ids.toFinset \ ((V ++ [id]) ++ (Qt ++ ch)).toFinset).card
            ≤ fuel := by
          rw [hcard, List.length_append]
          simp only [List.length_cons] at hfuel
          omega
        obtain ⟨r, t', heq, hnd', hids', hQ', hC'⟩ :=
          ih (V ++ [id]) (Qt ++ ch) acc hpre1 hpre2 hpre3 hpre4
        have hstep : bfsVisitAux F f (fuel + 1) (id :: Qt) acc V
            = bfsVisitAux F f fuel (Qt ++ ch) acc (V ++ [id]) := by
          simp [bfsVisitAux, he, hf, hch]
        refine ⟨r, id :: t', ?_, ?_, ?_, ?_, ?_⟩
        · rw [hstep, heq]
          simp
        · simpa using hnd'
        · intro x hx
          rcases List.mem_cons.mp hx with hx | hx
          · exact hx ▸ hidids
          · exact hids' x hx
        · intro x hx
          rcases List.mem_cons.mp hx with hx | hx
          · exact hx ▸ List.mem_cons_self _ _
          · exact List.mem_cons_of_mem _ (hQ' x (List.mem_append_left _ hx))
        · intro x hx e' he' hne k hk hpark
          rcases List.mem_cons.mp hx with hx | hx
          · subst hx
            have hkch : k ∈ ch := (hchmem k).mpr ⟨hk, hpark⟩
            have hkt : k ∈ t' := hQ' k (List.mem_append_right _ hkch)
            exact List.mem_append_right _ (List.mem_cons_of_mem _ hkt)
          · have hmem := hC' x hx e' he' hne k hk hpark
            simpa using hmem

theorem bfsTrace_total {α β ε : Type} (idf pf : α → Nat) (log : List α)
    (f : α → Except ε (List β)) (fuel : Nat)
    (hU : (log.map idf).Nodup)
    (hfuel : (mkForest idf pf log).roots.length
      + 2 * (log.map idf).length ≤ fuel) :
    ∃ r t, (mkForest idf pf log).bfsTrace f fuel = some (r, t) ∧ t.Nodup ∧
      (∀ x ∈ t, x ∈ log.map idf) ∧
      (∀ x ∈ (mkForest idf pf log).roots, x ∈ t) ∧
      (∀ x ∈ t, ∀ e, (mkForest idf pf log).entries x = some e →
        (∀ out, ¬ f e = Except.ok out) →
        ∀ k ∈ log.map idf, parentOf idf pf log k = x → k ∈ t) := by
  have hent : ∀ k ∈ log.map idf,
      ((mkForest idf pf log).entries k).isSome = true :=
    fun k hk => mkForest_entries_isSome idf pf log k hk
  have hnodes : ∀ k ∈ log.map idf, ∃ ch,
      (mkForest idf pf log).nodes k = some ch ∧ ch.Nodup ∧
      ∀ c, c ∈ ch ↔ (c ∈ log.map idf ∧ parentOf idf pf log c = k) :=
    fun k hk => ⟨childrenOf idf pf log k,
      mkForest_nodes_of_mem_ids idf pf log k hk,
      childrenOf_nodup idf pf log hU k,
      fun c => mem_childrenOf_iff idf pf log hU k c⟩
  have hnd0 : (([] : List Nat) ++ (mkForest idf pf log).roots).Nodup := by
    simpa using mkForest_roots_nodup idf pf log
  have hin0 : ∀ x ∈ ([] : List Nat) ++ (mkForest idf pf log).roots,
      x ∈ log.map idf := by
    intro x hx
    rw [List.nil_append] at hx
    exact ((mem_roots_iff idf pf log hU x).mp hx).1
  have hinv0 : ∀ x ∈ ([] : List Nat) ++ (mkForest idf pf log).roots,
      parentOf idf pf log x ∉ log.map idf ∨
      parentOf idf pf log x ∈ ([] : List Nat) := by
    intro x hx
    rw [List.nil_append] at hx
    exact Or.inl ((mem_roots_iff idf pf log hU x).mp hx).2
  have hmeas : (mkForest idf pf log).roots.length
      + 2 * ((log.map idf).toFinset
        \ (([] : List Nat) ++ (mkForest idf pf log).roots).toFinset).card
      ≤ fuel := by
    have h1 : ((log.map idf).toFinset
        \ (([] : List Nat) ++ (mkForest idf pf log).roots).toFinset).card
        ≤ (log.map idf).toFinset.card :=
      Finset.card_le_card (Finset.sdiff_subset)
    have h2 : (log.map idf).toFinset.card ≤ (log.map idf).length :=
      List.toFinset_card_le _
    omega
  obtain ⟨r, t, heq, hnd, hids, hQ, hC⟩ :=
    bfsVisit_master (mkForest idf pf log) f (log.map idf)
      (parentOf idf pf log) hent hnodes fuel [] (mkForest idf pf log).roots []
      hnd0 hin0 hinv0 hmeas
  refine ⟨r, t, ?_, by simpa using hnd, hids, hQ, ?_⟩
  · rw [Forest.bfsTrace, heq]
    simp
  · intro x hx e he hne k hk hp
    have hmem := hC x hx e he hne k hk hp
    simpa using hmem

theorem bfsAux_eq_visit {α β ε : Type} (F : Forest α)
    (f : α → Except ε (List β)) :
    ∀ (fuel : Nat) (Q : List Nat) (acc : List β) (V : List Nat)
      (r : List β) (t : List Nat),
      bfsVisitAux F f fuel Q acc V = some (r, t) →
      bfsAux F f fuel Q acc = some r := by
  intro fuel
  induction fuel with
  | zero =>
    intro Q acc V r t h
    cases Q with
    | nil =>
      simp only [bfsVisitAux, Option.some.injEq, Prod.mk.injEq] at h
      simp [bfsAux, h.1]
    | cons a Qt => simp [bfsVisitAux] at h
  | succ fuel ih =>
    intro Q acc V r t h
    cases Q with
    | nil =>
      simp only [bfsVisitAux, Option.some.injEq, Prod.mk.injEq] at h
      simp [bfsAux, h.1]
    | cons id Qt =>
      cases he : F.entries id with
      | none =>
        have h1 : bfsVisitAux F f (fuel + 1) (id :: Qt) acc V = none := by
          simp [bfsVisitAux, he]
        rw [h1] at h
        cases h
      | some e =>
        cases hf : f e with
        | ok outs =>
          have h1 : bfsVisitAux F f (fuel + 1) (id :: Qt) acc V
              = bfsVisitAux F f fuel Qt (acc ++ outs) (V ++ [id]) := by
            simp [bfsVisitAux, he, hf]
          have h2 : bfsAux F f (fuel + 1) (id :: Qt) acc
              = bfsAux F f fuel Qt (acc ++ outs) := by
            simp [bfsAux, he, hf]
          rw [h1] at h
          rw [h2]
          exact ih _ _ _ _ _ h
        | error err =>
          cases hn : F.nodes id with
          | none =>
            have h1 : bfsVisitAux F f (fuel + 1) (id :: Qt) acc V = none := by
              simp [bfsVisitAux, he, hf, hn]
            rw [h1] at h
            cases h
          | some ch =>
            have h1 : bfsVisitAux F f (fuel + 1) (id :: Qt) acc V
                = bfsVisitAux F f fuel (Qt ++ ch) acc (V ++ [id]) := by
              simp [bfsVisitAux, he, hf, hn]
            have h2 : bfsAux F f (fuel + 1) (id :: Qt) acc
                = bfsAux F f fuel (Qt ++ ch) acc := by
              simp [bfsAux, he, hf, hn]
            rw [h1] at h
            rw [h2]
            exact ih _ _ _ _ _ h

theorem flatten_reproduces {α : Type} (idf pf : α → Nat) (log : List α)
    (fuel : Nat) (hU : (log.map idf).Nodup)
    (hesc : ∀ k ∈ log.map idf, ∃ n,
      (parentOf idf pf log)^[n] k ∉ log.map idf)
    (hfuel : (mkForest idf pf log).roots.length
      + 2 * (log.map idf).length ≤ fuel) :
    ((mkForest idf pf log).flatten fuel).isSome = true ∧
    (((mkForest idf pf log).flatten fuel).getD []).Perm (log.map idf) := by
  obtain ⟨r, t, heq, hnd, hids, hQ, hC⟩ :=
    bfsTrace_total idf pf log
      (fun _ => (Except.error () : Except Unit (List Unit))) fuel hU hfuel
  have hflat : (mkForest idf pf log).flatten fuel = some t := by
    rw [Forest.bfsTrace] at heq
    rw [Forest.flatten, heq]
    rfl
  have hcomplete : ∀ n k, k ∈ log.map idf →
      (parentOf idf pf log)^[n] k ∉ log.map idf → k ∈ t := by
    intro n
    induction n with
    | zero =>
      intro k hk h0
      rw [Function.iterate_zero_apply] at h0
      exact absurd hk h0
    | succ n ihn =>
      intro k hk hn
      by_cases hp : parentOf idf pf log k ∈ log.map idf
      · have hpt : parentOf idf pf log k ∈ t := by
          apply ihn _ hp
          rw [← Function.iterate_succ_apply]
          exact hn
        obtain ⟨e, he⟩ := Option.isSome_iff_exists.mp
          (mkForest_entries_isSome idf pf log _ hp)
        exact hC _ hpt e he (fun out hout => Except.noConfusion hout) k hk rfl
      · exact hQ k ((mem_roots_iff idf pf log hU k).mpr ⟨hk, hp⟩)
  constructor
  · rw [hflat]
    rfl
  · rw [hflat, Option.getD_some, List.perm_iff_count]
    intro a
    by_cases ha : a ∈ t
    · rw [List.count_eq_one_of_mem hnd ha,
        List.count_eq_one_of_mem hU (hids a ha)]
    · have ha2 : a ∉ log.map idf := by
        intro hc
        obtain ⟨n, hn⟩ := hesc a hc
        exact ha (hcomplete n a hc hn)
      rw [List.count_eq_zero_of_not_mem ha, List.count_eq_zero_of_not_mem ha2]

/-! ### The `(.*)ld(.*)` pattern and recognizer selection -/

theorem hasLdAtHead_iff (s : List Char) :
    hasLdAtHead s = true ↔ ∃ b, s = 'l' :: 'd' :: b := by
  match s with
  | [] => simp [hasLdAtHead]
  | [c] => simp [hasLdAtHead]
  | c1 :: c2 :: rest =>
    simp only [hasLdAtHead, Bool.and_eq_true, beq_iff_eq, List.cons.injEq]
    constructor
    · rintro ⟨h1, h2⟩
      exact ⟨rest, h1, h2, rfl⟩
    · rintro ⟨b, h1, h2, _⟩
      exact ⟨h1, h2⟩

theorem matchesLD_iff (s : List Char) :
    matchesLD s = true ↔ ∃ a b, s = a ++ 'l' :: 'd' :: b := by
  induction s with
  | nil =>
    simp only [matchesLD]
    constructor
    · intro h
      cases h
    · rintro ⟨a, b, hab⟩
      cases a <;> simp at hab
  | cons c rest ih =>
    rw [matchesLD, Bool.or_eq_true, ih, hasLdAtHead_iff]
    constructor
    · rintro (⟨b, hb⟩ | ⟨a, b, hb⟩)
      · exact ⟨[], b, by simpa using hb⟩
      · exact ⟨c :: a, b, by rw [List.cons_append, hb]⟩
    · rintro ⟨a, b, hab⟩
      cases a with
      | nil =>
        exact Or.inl ⟨b, by simpa using hab⟩
      | cons c2 a2 =>
        rw [List.cons_append, List.cons.injEq] at hab
        exact Or.inr ⟨a2, b, hab.2⟩

theorem find?_eq_some_split {γ : Type} (p : γ → Bool) (l : List γ) (x : γ) :
    l.find? p = some x ↔
      ∃ l1 l2, l = l1 ++ x :: l2 ∧ p x = true ∧ ∀ y ∈ l1, p y = false := by
  induction l with
  | nil => simp
  | cons a t ih =>
    by_cases ha : p a
    · rw [List.find?_cons_of_pos _ ha]
      constructor
      · intro h
        injection h with h
        subst h
        exact ⟨[], t, rfl, ha, by simp⟩
      · rintro ⟨l1, l2, heq, hx, hl1⟩
        cases l1 with
        | nil =>
          rw [List.nil_append, List.cons.injEq] at heq
          rw [heq.1]
        | cons b l1t =>
          rw [List.cons_append, List.cons.injEq] at heq
          have hb : p b = false := hl1 b (by simp)
          rw [← heq.1, ha] at hb
          cases hb
    · rw [List.find?_cons_of_neg _ ha, ih]
      have hafalse : p a = false := by
        rw [← Bool.not_eq_true]
        exact ha
      constructor
      · rintro ⟨l1, l2, heq, hx, hl1⟩
        refine ⟨a :: l1, l2, by rw [List.cons_append, heq], hx, ?_⟩
        intro y hy
        rcases List.mem_cons.mp hy with hy | hy
        · exact hy ▸ hafalse
        · exact hl1 y hy
      · rintro ⟨l1, l2, heq, hx, hl1⟩
        cases l1 with
        | nil =>
          rw [List.nil_append, List.cons.injEq] at heq
          rw [heq.1] at hafalse
          rw [hafalse] at hx
          cases hx
        | cons b l1t =>
          rw [List.cons_append, List.cons.injEq] at heq
          exact ⟨l1t, l2, heq.2, hx, fun y hy => hl1 y (List.mem_cons_of_mem _ hy)⟩

/-! ### The claims -/

/-- Claim C1: when the recognition function succeeds on a visited node, all
produced Semantics are appended to the result in production order and the
node's children are never enqueued (one traversal step on success continues
with the untouched rest of the queue and result `acc ++ outs`); and in the
3-node chain A→B→C (`chainLog`) where node 1 (A) is recognized with
Semantics `[42]`, the traversal returns exactly `[42]` for every
recognition function agreeing on A — whatever it would answer on B and C,
which are therefore never queried. -/
theorem bfs_recognized_prunes_subtree :
    (∀ (α β ε : Type) (F : Forest α) (f : α → Except ε (List β))
      (fuel : Nat) (id : Nat) (rest : List Nat) (acc : List β)
      (e : α) (outs : List β),
      F.entries id = some e → f e = Except.ok outs →
      bfsAux F f (fuel + 1) (id :: rest) acc
        = bfsAux F f fuel rest (acc ++ outs)) ∧
    (∀ f : Execution → Except String (List Nat),
      f ⟨1, 0, mkCmd "a"⟩ = Except.ok [42] →
      (executionForest chainLog).bfs f 3 = some [42]) := by
  constructor
  · intro α β ε F f fuel id rest acc e outs he hf
    simp [bfsAux, he, hf]
  · intro f hf
    have hroot : (executionForest chainLog).roots = [1] := by decide
    have hent : (executionForest chainLog).entries 1
        = some ⟨1, 0, mkCmd "a"⟩ := by decide
    rw [Forest.bfs, hroot]
    have h1 : bfsAux (executionForest chainLog) f 3 [1] []
        = bfsAux (executionForest chainLog) f 2 [] ([] ++ [42]) := by
      simp [bfsAux, hent, hf]
    rw [h1]
    simp [bfsAux]

/-- Witness for C1: with the concrete recognizer that accepts exactly
process 1, the chain traversal produces exactly process 1's Semantics. -/
theorem bfs_recognized_prunes_subtree_witness :
    (executionForest chainLog).bfs recognizeRoot 3 = some [42] :=
  bfs_recognized_prunes_subtree.2 recognizeRoot rfl

/-- Claim C2: a command whose program is on the exclude list makes `select`
fail with the Excluded error, and the outcome is independent of the
recognizer list — no recognizer is consulted, even one whose predicate
would match. -/
theorem select_excluded_precedence :
    ∀ (σ : Type) (ts : Tools σ) (command : Command),
      command.program ∈ ts.to_exclude →
      ts.select command
        = Except.error
            "The compiler is on the exclude list from configuration." ∧
      ∀ ts2 : Tools σ, ts2.to_exclude = ts.to_exclude →
        ts2.select command = ts.select command := by
  intro σ ts command h
  constructor
  · rw [Tools.select, if_pos h]
  · intro ts2 h2
    have h3 : command.program ∈ ts2.to_exclude := by
      rw [h2]
      exact h
    rw [Tools.select, Tools.select, if_pos h, if_pos h3]

/-- Witness for C2: `"gcc"` is excluded while the registry's only
recognizer matches every program, yet `select` answers Excluded. -/
theorem select_excluded_precedence_witness :
    excludeTools.select gccCmd
      = Except.error
          "The compiler is on the exclude list from configuration." ∧
    alwaysTool.recognize gccCmd.program = true :=
  ⟨(select_excluded_precedence Nat excludeTools gccCmd (by decide)).1,
    by decide⟩

/-- Claim C3: for a command not on the exclude list, `select` returns
`Except.ok tool` exactly when `tool` is the first recognizer in registry
order whose predicate accepts the program (everything before it rejects),
and fails with the Unrecognized error exactly when every recognizer's
predicate rejects; in particular, of two matching recognizers the earlier
in priority order is always the one selected. -/
theorem select_first_match :
    ∀ (σ : Type) (ts : Tools σ) (command : Command),
      command.program ∉ ts.to_exclude →
      (∀ tool, ts.select command = Except.ok tool ↔
        ∃ l1 l2, ts.tools = l1 ++ tool :: l2 ∧
          tool.recognize command.program = true ∧
          ∀ t ∈ l1, t.recognize command.program = false) ∧
      (ts.select command = Except.error "No tools recognize this command." ↔
        ∀ t ∈ ts.tools, t.recognize command.program = false) := by
  intro σ ts command h
  constructor
  · intro tool
    rw [Tools.select, if_neg h]
    cases hfind : ts.tools.find? (fun t => t.recognize command.program) with
    | some t2 =>
      constructor
      · intro hok
        injection hok with hok
        subst hok
        exact (find?_eq_some_split _ _ _).mp hfind
      · intro hex
        have h2 := (find?_eq_some_split
          (fun t => t.recognize command.program) ts.tools tool).mpr hex
        rw [hfind] at h2
        injection h2 with h2
        rw [h2]
    | none =>
      constructor
      · intro hok
        exact Except.noConfusion hok
      · intro hex
        have h2 := (find?_eq_some_split
          (fun t => t.recognize command.program) ts.tools tool).mpr hex
        rw [hfind] at h2
        cases h2
  · rw [Tools.select, if_neg h]
    cases hfind : ts.tools.find? (fun t => t.recognize command.program) with
    | some t2 =>
      constructor
      · intro hok
        exact Except.noConfusion hok
      · intro hall
        have h2 := List.find?_some hfind
        have h3 := hall t2 (List.mem_of_find?_eq_some hfind)
        rw [h3] at h2
        cases h2
    | none =>
      constructor
      · intro _ t ht
        have h2 := List.find?_eq_none.mp hfind t ht
        rw [← Bool.not_eq_true]
        exact h2
      · intro _
        rfl

/-- Witness for C3: with two recognizers that both match `"gcc"`, the
first one in list order is selected. -/
theorem select_first_match_witness :
    twoTools.select gccCmd = Except.ok alwaysTool :=
  ((select_first_match Nat twoTools gccCmd (by decide)).1 alwaysTool).mpr
    ⟨[], [alwaysTool2], rfl, by decide, by simp⟩

/-- Claim C4: when the recognition function fails on a visited node, one
traversal step enqueues that node's children (in their stored first-seen
order) at the back of the queue and continues with the result unchanged —
the error value does not influence the continuation, so the failure is
never surfaced; and with unique process ids the whole traversal returns a
result list (it cannot abort). -/
theorem bfs_failure_continues :
    (∀ (α β ε : Type) (F : Forest α) (f : α → Except ε (List β))
      (fuel : Nat) (id : Nat) (rest : List Nat) (acc : List β)
      (e : α) (err : ε) (ch : List Nat),
      F.entries id = some e → f e = Except.error err → F.nodes id = some ch →
      bfsAux F f (fuel + 1) (id :: rest) acc
        = bfsAux F f fuel (rest ++ ch) acc) ∧
    (∀ (β ε : Type) (f : Execution → Except ε (List β))
      (log : List Execution) (fuel : Nat),
      (log.map (fun e => e.pid)).Nodup →
      (executionForest log).roots.length
        + 2 * (log.map (fun e => e.pid)).length ≤ fuel →
      ((executionForest log).bfs f fuel).isSome = true) := by
  constructor
  · intro α β ε F f fuel id rest acc e err ch he hf hch
    simp [bfsAux, he, hf, hch]
  · intro β ε f log fuel hU hfuel
    have hfuel2 : (mkForest (fun e => e.pid) (fun e => e.ppid)
        log).roots.length + 2 * (log.map (fun e => e.pid)).length ≤ fuel :=
      hfuel
    obtain ⟨r, t, heq, _, _, _, _⟩ :=
      bfsTrace_total (fun e => e.pid) (fun e => e.ppid) log f fuel hU hfuel2
    rw [Forest.bfsTrace] at heq
    have hb := bfsAux_eq_visit _ f fuel _ [] [] r t heq
    show ((mkForest (fun e => e.pid) (fun e => e.ppid) log).bfs
      f fuel).isSome = true
    rw [Forest.bfs, hb]
    rfl

/-- Witness for C4: a failing step on the chain forest enqueues node 1's
child 2 and continues, and the traversal of a log containing a self-parent
record still returns a result list. -/
theorem bfs_failure_continues_witness :
    bfsAux (executionForest chainLog) recognizeNone 3 [1] []
      = bfsAux (executionForest chainLog) recognizeNone 2 ([] ++ [2]) [] ∧
    ((executionForest selfParentLog).bfs recognizeNone 5).isSome = true :=
  ⟨bfs_failure_continues.1 Execution Nat String (executionForest chainLog)
      recognizeNone 2 1 [] [] ⟨1, 0, mkCmd "a"⟩ "no" [2]
      (by decide) rfl (by decide),
    bfs_failure_continues.2 Nat String recognizeNone selfParentLog 5
      (by decide) (by decide)⟩

/-- Claim C5, corrected: the id→entry map is filled with `emplace`, which
does not overwrite an existing key, so for duplicate process ids the entry
of the FIRST record in log order wins, not the last. On `dupLog` (two
records with pid 1) the map holds the first record while the last record
differs. -/
theorem entries_last_wins_counterexample :
    (executionForest dupLog).entries 1 = some ⟨1, 0, mkCmd "first"⟩ ∧
    dupLog.getLast? = some ⟨1, 0, mkCmd "second"⟩ ∧
    (⟨1, 0, mkCmd "first"⟩ : Execution) ≠ ⟨1, 0, mkCmd "second"⟩ := by
  exact ⟨by decide, by decide, by decide⟩

/-- Claim C5, amended: for every log containing two or more records with
the same process id, the forest's id→entry map keeps the entry of the
first such record in log order (the first entry silently wins; later
duplicates are ignored by `emplace`). -/
theorem entries_first_wins :
    ∀ (log : List Execution) (k : Nat),
      2 ≤ (log.filter (fun e => e.pid == k)).length →
      (executionForest log).entries k = log.find? (fun e => e.pid == k) := by
  intro log k _
  show (mkForest (fun e => e.pid) (fun e => e.ppid) log).entries k = _
  exact mkForest_entries _ _ log k

/-- Witness for the amended C5 at the duplicate-id log. -/
theorem entries_first_wins_witness :
    (executionForest dupLog).entries 1
      = dupLog.find? (fun e => e.pid == 1) :=
  entries_first_wins dupLog 1 (by decide)

/-- Claim C6: a candidate root with no entry (a phantom root — referenced
as a parent but never logged) is removed from the children map and its
listed children are promoted to roots; concretely, the log where processes
2 and 3 both list parent 1 but 1 is never logged yields roots `[2, 3]`
(sorted), not `[1]`. -/
theorem phantom_root_promotion :
    (∀ (log : List Execution) (r : Nat),
      r ∈ log.map (fun e => e.ppid) → r ∉ log.map (fun e => e.pid) →
      (executionForest log).nodes r = none ∧
      ∀ c ∈ childrenOf (fun e => e.pid) (fun e => e.ppid) log r,
        c ∈ (executionForest log).roots) ∧
    (executionForest phantomLog).roots = [2, 3] := by
  constructor
  · intro log r hp hk
    refine ⟨mkForest_nodes_phantom _ _ log r hp hk, ?_⟩
    intro c hc
    exact (mem_mkForest_roots _ _ log c).mpr ⟨r, hp, hk, hc⟩
  · decide

/-- Witness for C6: the phantom root 1 of `phantomLog` is dropped from the
children map. -/
theorem phantom_root_promotion_witness :
    (executionForest phantomLog).nodes 1 = none :=
  (phantom_root_promotion.1 phantomLog 1 (by decide) (by decide)).1

/-- Claim C7 counterexample: in the log `[⟨1, 1, _⟩]` the id 1 is a
non-root (the forest has no roots at all) appearing exactly once, yet
re-flattening the forest breadth-first produces the empty list, which does
not contain 1 — so re-flattening does not reproduce every id of the log. -/
theorem flatten_self_parent_counterexample :
    selfLog.map (fun e => e.pid) = [1] ∧
    (executionForest selfLog).roots = [] ∧
    (executionForest selfLog).flatten 5 = some [] := by
  exact ⟨by decide, by decide, by decide⟩

/-- Claim C7, amended: for every log with pairwise-distinct ids in which
every record's chain of parent references eventually leaves the logged ids
(no parent cycle — in particular no record is its own parent), building
the forest and re-flattening it breadth-first produces every id of the log
exactly once. -/
theorem flatten_reproduces_ids :
    ∀ (log : List Execution) (fuel : Nat),
      (log.map (fun e => e.pid)).Nodup →
      (∀ k ∈ log.map (fun e => e.pid), ∃ n,
        (parentOf (fun e => e.pid) (fun e => e.ppid) log)^[n] k
          ∉ log.map (fun e => e.pid)) →
      (executionForest log).roots.length
        + 2 * (log.map (fun e => e.pid)).length ≤ fuel →
      ((executionForest log).flatten fuel).isSome = true ∧
      (((executionForest log).flatten fuel).getD []).Perm
        (log.map (fun e => e.pid)) := by
  intro log fuel hU hesc hfuel
  have hfuel2 : (mkForest (fun e => e.pid) (fun e => e.ppid)
      log).roots.length + 2 * (log.map (fun e => e.pid)).length ≤ fuel :=
    hfuel
  exact flatten_reproduces (fun e => e.pid) (fun e => e.ppid) log fuel hU
    hesc hfuel2

/-- Witness for the amended C7 at the 2-node chain `smallLog`. -/
theorem flatten_reproduces_ids_witness :
    ((executionForest smallLog).flatten 10).isSome = true ∧
    (((executionForest smallLog).flatten 10).getD []).Perm
      (smallLog.map (fun e => e.pid)) :=
  flatten_reproduces_ids smallLog 10 (by decide)
    (by
      intro k hk
      have hk2 : k = 1 ∨ k = 2 := by
        simpa [smallLog, mkCmd] using hk
      rcases hk2 with rfl | rfl
      · exact ⟨1, by decide⟩
      · exact ⟨2, by decide⟩)
    (by decide)

/-- Claim C8: on a log with unique process ids the traversal pops each id
at most once (the visit trace is duplicate-free) and terminates — the
instrumented run completes within the stated fuel and the plain `bfs` is
its first projection — with no assumption excluding self-referential
parent ids. -/
theorem bfs_terminates_no_revisit :
    ∀ (β ε : Type) (f : Execution → Except ε (List β))
      (log : List Execution) (fuel : Nat),
      (log.map (fun e => e.pid)).Nodup →
      (executionForest log).roots.length
        + 2 * (log.map (fun e => e.pid)).length ≤ fuel →
      ((executionForest log).bfsTrace f fuel).isSome = true ∧
      (((executionForest log).bfsTrace f fuel).getD ([], [])).2.Nodup ∧
      (executionForest log).bfs f fuel
        = ((executionForest log).bfsTrace f fuel).map Prod.fst := by
  intro β ε f log fuel hU hfuel
  have hfuel2 : (mkForest (fun e => e.pid) (fun e => e.ppid)
      log).roots.length + 2 * (log.map (fun e => e.pid)).length ≤ fuel :=
    hfuel
  obtain ⟨r, t, heq, hnd, _, _, _⟩ :=
    bfsTrace_total (fun e => e.pid) (fun e => e.ppid) log f fuel hU hfuel2
  have heq2 : (executionForest log).bfsTrace f fuel = some (r, t) := heq
  refine ⟨by rw [heq2]; rfl, by rw [heq2]; exact hnd, ?_⟩
  rw [heq2]
  rw [Forest.bfsTrace] at heq2
  have hb := bfsAux_eq_visit _ f fuel _ [] [] r t heq2
  rw [Forest.bfs, hb]
  rfl

/-- Witness for C8 at a unique-id log containing a self-parent record. -/
theorem bfs_terminates_no_revisit_witness :
    ((executionForest selfParentLog).bfsTrace recognizeNone 5).isSome
      = true ∧
    (((executionForest selfParentLog).bfsTrace recognizeNone 5).getD
      ([], [])).2.Nodup ∧
    (executionForest selfParentLog).bfs recognizeNone 5
      = ((executionForest selfParentLog).bfsTrace recognizeNone 5).map
          Prod.fst :=
  bfs_terminates_no_revisit Nat String recognizeNone selfParentLog 5
    (by decide) (by decide)

/-- Claim C9: the root list of every built forest is sorted ascending by
id; the traversal is deterministic breadth-first queue processing — a
successful step emits in queue order without touching the children, a
failing step appends the children to the back of the queue — and the
children stored for every logged id are exactly its children in first-seen
log order. -/
theorem roots_sorted_bfs_order :
    (∀ log : List Execution,
      ((executionForest log).roots).Sorted (· ≤ ·)) ∧
    (∀ (α β ε : Type) (F : Forest α) (f : α → Except ε (List β))
      (fuel : Nat) (id : Nat) (rest : List Nat) (acc : List β)
      (e : α) (outs : List β),
      F.entries id = some e → f e = Except.ok outs →
      bfsAux F f (fuel + 1) (id :: rest) acc
        = bfsAux F f fuel rest (acc ++ outs)) ∧
    (∀ (α β ε : Type) (F : Forest α) (f : α → Except ε (List β))
      (fuel : Nat) (id : Nat) (rest : List Nat) (acc : List β)
      (e : α) (err : ε) (ch : List Nat),
      F.entries id = some e → f e = Except.error err → F.nodes id = some ch →
      bfsAux F f (fuel + 1) (id :: rest) acc
        = bfsAux F f fuel (rest ++ ch) acc) ∧
    (∀ (log : List Execution) (k : Nat), k ∈ log.map (fun e => e.pid) →
      (executionForest log).nodes k
        = some (childrenOf (fun e => e.pid) (fun e => e.ppid) log k)) := by
  refine ⟨?_, ?_, ?_, ?_⟩
  · intro log
    exact mkForest_roots_sorted _ _ log
  · intro α β ε F f fuel id rest acc e outs he hf
    simp [bfsAux, he, hf]
  · intro α β ε F f fuel id rest acc e err ch he hf hch
    simp [bfsAux, he, hf, hch]
  · intro log k hk
    exact mkForest_nodes_of_mem_ids _ _ log k hk

/-- Witness for C9 at the chain log. -/
theorem roots_sorted_bfs_order_witness :
    ((executionForest chainLog).roots).Sorted (· ≤ ·) ∧
    (executionForest chainLog).nodes 1
      = some (childrenOf (fun e => e.pid) (fun e => e.ppid) chainLog 1) ∧
    bfsAux (executionForest chainLog) recognizeNone 3 [1] []
      = bfsAux (executionForest chainLog) recognizeNone 2 ([] ++ [2]) [] :=
  ⟨roots_sorted_bfs_order.1 chainLog,
    roots_sorted_bfs_order.2.2.2 chainLog 1 (by decide),
    roots_sorted_bfs_order.2.2.1 Execution Nat String
      (executionForest chainLog) recognizeNone 2 1 [] []
      ⟨1, 0, mkCmd "a"⟩ "no" [2] (by decide) rfl (by decide)⟩

/-- Claim C10: `ToolLD::recognize` accepts a program exactly when its
filename contains `"ld"` as a substring anywhere (the full-match of
`(.*)ld(.*)`), so `ldd`, `gold` and `fold` are recognized as linker
invocations — not only the exact name `ld` — while `gcc` is not. -/
theorem toolLD_recognize_substring :
    (∀ program : String, ToolLD_recognize program = true ↔
      ∃ a b, lastComponent program.data = a ++ 'l' :: 'd' :: b) ∧
    ToolLD_recognize "ldd" = true ∧
    ToolLD_recognize "gold" = true ∧
    ToolLD_recognize "fold" = true ∧
    ToolLD_recognize "ld" = true ∧
    ToolLD_recognize "/usr/bin/ld" = true ∧
    ToolLD_recognize "gcc" = false := by
  refine ⟨?_, by decide, by decide, by decide, by decide, by decide,
    by decide⟩
  intro program
  rw [ToolLD_recognize, matchesLD_iff]

end Bear
